import Mathlib

/-!
Verification development for the slack-archive incremental sync engine
(src/archive.rs).  The Rust source is shallowly embedded: strings are
lists of characters (all inputs of interest are ASCII, so Rust byte
indices coincide with character indices), Rust `i64` values are `Int`
(with the i64 range check modelled where the source performs a fallible
parse), the SQLite `message` table is a list of rows whose
`INSERT OR REPLACE` statement is modelled as delete-then-append on the
primary key `(channel_id, ts)`, and a Rust panic (from `unwrap` or an
out-of-bounds slice) is modelled as `none` / an `Abort.panic` result.
-/

deriving instance DecidableEq for Except

namespace SlackArchive

/-- ASCII digit character for a digit value `d < 10`. -/
def digitChar (d : Nat) : Char := Char.ofNat (48 + d)

/-- Numeric value of an ASCII digit character. -/
def charVal (c : Char) : Nat := c.toNat - 48

/-- Whether a character is an ASCII decimal digit. -/
def isDigitChar (c : Char) : Bool := 48 ≤ c.toNat && c.toNat ≤ 57

/-- Value of a big-endian decimal digit string. -/
def valBE (l : List Char) : Nat := l.foldl (fun a c => 10 * a + charVal c) 0

/-- Decimal rendering of a natural number, most significant digit first.
The fuel (24) exceeds the digit count of any `u64`/`i64`, so the
rendering is exact on the whole range the Rust code can produce. -/
def renderAux : Nat → Nat → List Char
  | 0, _ => []
  | fuel + 1, n => if n = 0 then [] else renderAux fuel (n / 10) ++ [digitChar (n % 10)]

/-- Decimal rendering of a natural number; models Rust integer `Display`. -/
def renderNat (n : Nat) : List Char := if n = 0 then ['0'] else renderAux 24 n

/-- Left-pad a digit string with zeros to width `w`. -/
def padZeros (w : Nat) (l : List Char) : List Char :=
  List.replicate (w - l.length) '0' ++ l

/-- Models Rust `format!` with a zero-padding width specifier (`{:0w}`):
the minus sign of a negative value counts toward the width and the
zeros are inserted after it. -/
def fmtPad (w : Nat) (n : Int) : List Char :=
  if n < 0 then '-' :: padZeros (w - 1) (renderNat n.natAbs) else padZeros w (renderNat n.natAbs)

/-- Parse of an unsigned decimal digit string (no sign): `some` of its
value when the string is nonempty and all digits, else `none`. -/
def parseDigits? (l : List Char) : Option Nat :=
  if l.isEmpty then none else if l.all isDigitChar then some (valBE l) else none

/-- Models Rust `str::parse::<i64>`: an optional single leading sign,
then one or more digits, with the i64 range check. -/
def parseI64? (l : List Char) : Option Int :=
  match l with
  | [] => none
  | c :: rest =>
    if c = '-' then (parseDigits? rest).bind fun n => if n ≤ 2 ^ 63 then some (-(n : Int)) else none
    else if c = '+' then (parseDigits? rest).bind fun n => if n < 2 ^ 63 then some ((n : Int)) else none
    else (parseDigits? (c :: rest)).bind fun n => if n < 2 ^ 63 then some ((n : Int)) else none

/-- `fn slack_ts_to_unix_micros(ts: &str) -> i64`.
`ts.split_at(10)` panics when the string is shorter than 10 bytes,
`micros[1..]` panics when the remainder is empty, and the two
`.parse::<i64>().unwrap()` calls panic on parse failure; every panic is
modelled as `none`. -/
def slack_ts_to_unix_micros (ts : List Char) : Option Int :=
  if ts.length < 10 then none
  else
    let seconds := ts.take 10
    let micros := ts.drop 10
    if micros.length = 0 then none
    else
      match parseI64? seconds, parseI64? (micros.drop 1) with
      | some s, some f => some (s * 1000000 + f)
      | _, _ => none

/-- `fn unix_micros_to_slack_ts(micros: i64) -> String`:
`format!("{:010}.{:06}", micros / 1_000_000, micros % 1_000_000)` with
Rust's truncating division and remainder. -/
def unix_micros_to_slack_ts (micros : Int) : List Char :=
  fmtPad 10 (micros.tdiv 1000000) ++ '.' :: fmtPad 6 (micros.tmod 1000000)

/-- A row of the SQLite `message` table created by `init_db`:
`channel_id TEXT NOT NULL, ts INTEGER NOT NULL, from TEXT NOT NULL,
text BLOB, PRIMARY KEY (channel_id, ts)`.  The `from` column (fed from
`msg.user`) is called `author` because `from` is a Lean keyword; the
nullable `text` column is an `Option`. -/
structure Row where
  channel_id : String
  ts : Int
  author : String
  text : Option String
deriving DecidableEq, Repr

/-- Whether a row has the given primary key. -/
def rowKey (r : Row) (cid : String) (ts : Int) : Bool :=
  r.channel_id == cid && r.ts == ts

/-- The `INSERT OR REPLACE INTO message` statement of `archive_channel`
under the table's primary key `(channel_id, ts)`: any row with the same
key is replaced, and binding the `NOT NULL` column `from` to an absent
`msg.user` makes the statement fail (`none`). -/
def upsert (db : List Row) (cid : String) (ts : Int)
    (user : Option String) (text : Option String) : Option (List Row) :=
  match user with
  | none => none
  | some u => some (db.filter (fun r => !rowKey r cid ts) ++ [⟨cid, ts, u, text⟩])

/-- The `slack::Message` enum: the tagged message variants of the feed.
Every variant's payload carries `ts: Option<String>`; the `Standard`
variant additionally carries the `user` and `text` fields that
`archive_channel` persists. -/
inductive SlackMessage where
  | BotMessage (ts : Option (List Char))
  | ChannelArchive (ts : Option (List Char))
  | ChannelJoin (ts : Option (List Char))
  | ChannelLeave (ts : Option (List Char))
  | ChannelName (ts : Option (List Char))
  | ChannelPurpose (ts : Option (List Char))
  | ChannelTopic (ts : Option (List Char))
  | ChannelUnarchive (ts : Option (List Char))
  | FileComment (ts : Option (List Char))
  | FileMention (ts : Option (List Char))
  | FileShare (ts : Option (List Char))
  | GroupArchive (ts : Option (List Char))
  | GroupJoin (ts : Option (List Char))
  | GroupLeave (ts : Option (List Char))
  | GroupName (ts : Option (List Char))
  | GroupPurpose (ts : Option (List Char))
  | GroupTopic (ts : Option (List Char))
  | GroupUnarchive (ts : Option (List Char))
  | MeMessage (ts : Option (List Char))
  | MessageChanged (ts : Option (List Char))
  | MessageDeleted (ts : Option (List Char))
  | MessageReplied (ts : Option (List Char))
  | PinnedItem (ts : Option (List Char))
  | ReplyBroadcast (ts : Option (List Char))
  | Standard (ts : Option (List Char)) (user : Option String) (text : Option String)
  | UnpinnedItem (ts : Option (List Char))
deriving DecidableEq, Repr

/-- The exhaustive per-variant `msg.ts` extraction inside
`fn message_ts`. -/
def tsField : SlackMessage → Option (List Char)
  | .BotMessage ts => ts
  | .ChannelArchive ts => ts
  | .ChannelJoin ts => ts
  | .ChannelLeave ts => ts
  | .ChannelName ts => ts
  | .ChannelPurpose ts => ts
  | .ChannelTopic ts => ts
  | .ChannelUnarchive ts => ts
  | .FileComment ts => ts
  | .FileMention ts => ts
  | .FileShare ts => ts
  | .GroupArchive ts => ts
  | .GroupJoin ts => ts
  | .GroupLeave ts => ts
  | .GroupName ts => ts
  | .GroupPurpose ts => ts
  | .GroupTopic ts => ts
  | .GroupUnarchive ts => ts
  | .MeMessage ts => ts
  | .MessageChanged ts => ts
  | .MessageDeleted ts => ts
  | .MessageReplied ts => ts
  | .PinnedItem ts => ts
  | .ReplyBroadcast ts => ts
  | .Standard ts _ _ => ts
  | .UnpinnedItem ts => ts

/-- `fn message_ts(message: &Message) -> Option<i64>`.  The outer
`none` models the panic that `slack_ts_to_unix_micros` raises on a
malformed timestamp string; `some none` is the function's `None`
result for an absent `ts` field. -/
def message_ts (message : SlackMessage) : Option (Option Int) :=
  match tsField message with
  | none => some none
  | some ts_str =>
    match slack_ts_to_unix_micros ts_str with
    | none => none
    | some v => some (some v)

/-- Whether a feed message is the `Standard` variant. -/
def isStandard : SlackMessage → Bool
  | .Standard _ _ _ => true
  | _ => false

/-- How a channel sync run can abort: a Rust panic (an `unwrap`
failure), a failed `db.execute` (`?` on the insert), or a failed
`slack::channels::history` call (`?` on the fetch). -/
inductive Abort where
  | panic
  | persistError
  | fetchError
deriving DecidableEq, Repr

/-- Processing of one message inside the persist loop of
`archive_channel`: a `Standard` message is upserted
(`msg.ts.unwrap()` panics when the timestamp is absent, the decode
panics when it is malformed, and the insert can fail on a `NULL`
`from`); every other variant is skipped (`_ => continue`).  On success
the result carries the new table and the row that was written
(`none` when the message was skipped). -/
def persistMessage (db : List Row) (cid : String) :
    SlackMessage → Except Abort (List Row × Option Row)
  | .Standard ts user text =>
    match ts with
    | none => .error .panic
    | some ts_str =>
      match slack_ts_to_unix_micros ts_str with
      | none => .error .panic
      | some v =>
        match upsert db cid v user text, user with
        | some db', some u => .ok (db', some ⟨cid, v, u, text⟩)
        | _, _ => .error .persistError
  | _ => .ok (db, none)

/-- Result of persisting a batch: the table after the last successful
statement, the sequence of rows written (the `INSERT OR REPLACE`
statements issued, in order), and the abort that stopped the loop, if
any.  On an abort the table of the rows already persisted is kept:
`db.execute` mutates the store in place and `?` merely returns. -/
structure BatchResult where
  db : List Row
  writes : List Row
  err : Option Abort
deriving DecidableEq, Repr

/-- The `for message in messages.into_iter().rev()` loop body of
`archive_channel`, applied to an already-reversed list. -/
def persistBatch (db : List Row) (cid : String) : List SlackMessage → BatchResult
  | [] => ⟨db, [], none⟩
  | m :: rest =>
    match persistMessage db cid m with
    | .error e => ⟨db, [], some e⟩
    | .ok (db', w) =>
      let r := persistBatch db' cid rest
      ⟨r.db, w.toList ++ r.writes, r.err⟩

/-- The cursor advancement
`if let Some(ts) = message_ts(&messages[0]) { oldest_ts = ts; }`:
keeps the previous bound when the newest message has no timestamp and
panics when its timestamp string is malformed. -/
def cursorUpdate (oldest : Int) (m : SlackMessage) : Except Abort Int :=
  match message_ts m with
  | none => .error .panic
  | some none => .ok oldest
  | some (some ts) => .ok ts

/-- The fields of a `slack::channels::history` response the loop
reads: `messages: Option<Vec<Message>>` and `has_more: Option<bool>`. -/
structure FetchResponse where
  messages : Option (List SlackMessage)
  has_more : Option Bool
deriving DecidableEq, Repr

/-- Outcome of one iteration of the `loop` in `archive_channel`. -/
inductive Step where
  | done (db : List Row)
  | next (db : List Row) (oldest : Int)
  | aborted (db : List Row) (e : Abort)
deriving DecidableEq, Repr

/-- One iteration of the `loop` in `archive_channel`, given the fetch
outcome for the current `oldest_ts` (`none` models a failed fetch).
Mirrors the source order: an absent `messages` field skips straight to
the `has_more` check; an empty batch breaks before that check; else the
cursor is advanced from `messages[0]`, the reversed batch is persisted,
and `has_more.unwrap_or(false)` decides between another iteration and
the final break. -/
def archiveStep (cid : String) (db : List Row) (oldest : Int) :
    Option FetchResponse → Step
  | none => .aborted db .fetchError
  | some r =>
    match r.messages with
    | none => if r.has_more.getD false then .next db oldest else .done db
    | some [] => .done db
    | some (m0 :: ms) =>
      match cursorUpdate oldest m0 with
      | .error e => .aborted db e
      | .ok oldest' =>
        match persistBatch db cid ((m0 :: ms).reverse) with
        | ⟨db', _, some e⟩ => .aborted db' e
        | ⟨db', _, none⟩ =>
          if r.has_more.getD false then .next db' oldest' else .done db'

/-- Outcome of a whole channel run: `done` on the loop's break,
`aborted` on an error or panic (carrying the table as mutated so far),
`pending` when the given fuel ran out before the loop finished (the
next fetch would be issued with the carried lower bound). -/
inductive RunResult where
  | done (db : List Row)
  | aborted (db : List Row) (e : Abort)
  | pending (db : List Row) (oldest : Int)
deriving DecidableEq, Repr

/-- The `loop` of `archive_channel`: each iteration fetches at the
current `oldest_ts` lower bound and steps.  `fetch` abstracts
`slack::channels::history` as a function of the `oldest` parameter the
code passes it; the fuel makes the recursion well-founded. -/
def run (fetch : Int → Option FetchResponse) (cid : String) :
    Nat → List Row → Int → RunResult
  | 0, db, oldest => .pending db oldest
  | fuel + 1, db, oldest =>
    match archiveStep cid db oldest (fetch oldest) with
    | .done db' => .done db'
    | .aborted db' e => .aborted db' e
    | .next db' oldest' => run fetch cid fuel db' oldest'

/-- `const EDIT_WINDOW_MINUTES: i64 = 60;`. -/
def EDIT_WINDOW_MINUTES : Int := 60

/-- The start-cursor computation at the top of `archive_channel`:
`match get_last_ts(db, channel_id)? { None => 1, Some(ts) => ts -
(EDIT_WINDOW_MINUTES * 60 * 1_000_000) }`. -/
def computeStart (last : Option Int) : Int :=
  match last with
  | none => 1
  | some ts => ts - EDIT_WINDOW_MINUTES * 60 * 1000000

/-- The earliest moment representable in the store's microsecond
timestamp encoding of wire timestamps: the value of the minimal wire
timestamp `0000000000.000000`.  Used to state the claim that the
first-run start cursor is the earliest representable moment. -/
def earliestRepresentableMicros : Int := 0

/-- A channel entry of the `slack::channels::list` response:
`id: Option<String>, name: Option<String>`. -/
structure Channel where
  id : Option String
  name : Option String
deriving DecidableEq, Repr

/-- The channel loop of `archive_all`: for each listed channel with
both an id and a name, channels not named `general` are skipped and
the rest are archived via `archive_channel` (abstracted as `act`),
whose error aborts the loop (`?`).  Returns the ids `archive_channel`
was invoked on, in order, with the abort if one occurred. -/
def archive_all (act : String → Except Abort Unit) :
    List Channel → List String × Option Abort
  | [] => ([], none)
  | c :: rest =>
    match c.id, c.name with
    | some i, some n =>
      if n = "general" then
        match act i with
        | .error e => ([i], some e)
        | .ok _ =>
          let r := archive_all act rest
          (i :: r.1, r.2)
      else archive_all act rest
    | _, _ => archive_all act rest

/-- The wire timestamp format of the spec:
ten digit characters, a decimal point, six digit characters. -/
def IsWireTs (l : List Char) : Prop :=
  ∃ s f : List Char, l = s ++ '.' :: f ∧ s.length = 10 ∧ f.length = 6 ∧
    s.all isDigitChar = true ∧ f.all isDigitChar = true

theorem renderAux_zero : ∀ fuel, renderAux fuel 0 = []
  | 0 => rfl
  | _ + 1 => by simp [renderAux]

theorem charVal_digitChar : ∀ d : Nat, d < 10 → charVal (digitChar d) = d := by decide

theorem isDigitChar_digitChar : ∀ d : Nat, d < 10 → isDigitChar (digitChar d) = true := by decide

theorem digitChar_charVal {c : Char} (h : isDigitChar c = true) : digitChar (charVal c) = c := by
  simp only [isDigitChar, Bool.and_eq_true, decide_eq_true_eq] at h
  have h48 : 48 + (c.toNat - 48) = c.toNat := by omega
  simp only [digitChar, charVal, h48, Char.ofNat_toNat]

theorem charVal_le_nine {c : Char} (h : isDigitChar c = true) : charVal c ≤ 9 := by
  simp only [isDigitChar, Bool.and_eq_true, decide_eq_true_eq] at h
  simp only [charVal]; omega

theorem charVal_pos {c : Char} (h : isDigitChar c = true) (h0 : c ≠ '0') : 1 ≤ charVal c := by
  have hne : c.toNat ≠ 48 := by
    intro hc
    apply h0
    calc c = Char.ofNat c.toNat := (Char.ofNat_toNat c).symm
      _ = Char.ofNat 48 := by rw [hc]
      _ = '0' := by decide
  simp only [isDigitChar, Bool.and_eq_true, decide_eq_true_eq] at h
  simp only [charVal]; omega

theorem valBE_foldl_init (a : Nat) (l : List Char) :
    l.foldl (fun x c => 10 * x + charVal c) a = a * 10 ^ l.length + valBE l := by
  induction l generalizing a with
  | nil => simp [valBE]
  | cons c t ih =>
    simp only [List.foldl_cons, valBE, List.length_cons]
    rw [ih (10 * a + charVal c), ih (10 * 0 + charVal c)]
    ring

theorem valBE_cons (c : Char) (t : List Char) :
    valBE (c :: t) = charVal c * 10 ^ t.length + valBE t := by
  have := valBE_foldl_init (10 * 0 + charVal c) t
  simpa [valBE] using this

theorem valBE_append (l₁ l₂ : List Char) :
    valBE (l₁ ++ l₂) = valBE l₁ * 10 ^ l₂.length + valBE l₂ := by
  have := valBE_foldl_init (valBE l₁) l₂
  simpa [valBE, List.foldl_append] using this

theorem valBE_replicate_zero (k : Nat) : valBE (List.replicate k '0') = 0 := by
  induction k with
  | zero => rfl
  | succ n ih =>
    rw [List.replicate_succ, valBE_cons, ih]
    have h0 : charVal '0' = 0 := rfl
    simp [h0]

theorem valBE_padZeros (w : Nat) (l : List Char) : valBE (padZeros w l) = valBE l := by
  simp [padZeros, valBE_append, valBE_replicate_zero]

theorem valBE_lt (l : List Char) (h : l.all isDigitChar = true) : valBE l < 10 ^ l.length := by
  induction l with
  | nil => simp [valBE]
  | cons c t ih =>
    simp only [List.all_cons, Bool.and_eq_true] at h
    rw [valBE_cons]
    have hc := charVal_le_nine h.1
    have ht := ih h.2
    have hmul : charVal c * 10 ^ t.length ≤ 9 * 10 ^ t.length :=
      Nat.mul_le_mul_right _ hc
    simp only [List.length_cons, pow_succ]
    omega

theorem valBE_pos (c : Char) (t : List Char) (hc : isDigitChar c = true) (h0 : c ≠ '0') :
    1 ≤ valBE (c :: t) := by
  rw [valBE_cons]
  have hd := charVal_pos hc h0
  have hp : 1 ≤ 10 ^ t.length := Nat.one_le_pow _ _ (by norm_num)
  have := Nat.mul_le_mul hd hp
  omega

theorem valBE_renderAux : ∀ fuel n, n < 10 ^ fuel → valBE (renderAux fuel n) = n := by
  intro fuel
  induction fuel with
  | zero =>
    intro n h
    have : n = 0 := by simpa using h
    subst this; rfl
  | succ f ih =>
    intro n h
    by_cases hn : n = 0
    · subst hn; simp [renderAux, valBE]
    · simp only [renderAux, if_neg hn]
      rw [valBE_append, ih (n / 10) (by rw [pow_succ] at h; omega)]
      have hval : valBE [digitChar (n % 10)] = n % 10 := by
        rw [show valBE [digitChar (n % 10)] = charVal (digitChar (n % 10)) by simp [valBE]]
        exact charVal_digitChar _ (Nat.mod_lt _ (by norm_num))
      rw [hval]
      simp only [List.length_cons, List.length_nil, pow_one]
      omega

theorem renderAux_all_digits : ∀ fuel n, (renderAux fuel n).all isDigitChar = true := by
  intro fuel
  induction fuel with
  | zero => intro n; rfl
  | succ f ih =>
    intro n
    by_cases hn : n = 0
    · simp [renderAux, hn]
    · simp only [renderAux, if_neg hn, List.all_append, ih, Bool.true_and, List.all_cons,
        List.all_nil, Bool.and_true]
      exact isDigitChar_digitChar _ (Nat.mod_lt _ (by norm_num))

theorem renderAux_length_le : ∀ fuel n k, n < 10 ^ k → (renderAux fuel n).length ≤ k := by
  intro fuel
  induction fuel with
  | zero => intro n k _; simp [renderAux]
  | succ f ih =>
    intro n k h
    by_cases hn : n = 0
    · simp [renderAux, hn]
    · simp only [renderAux, if_neg hn, List.length_append, List.length_cons, List.length_nil]
      cases k with
      | zero => simp at h; omega
      | succ k' =>
        have hdiv : n / 10 < 10 ^ k' := by rw [pow_succ] at h; omega
        have := ih (n / 10) k' hdiv
        omega

theorem valBE_renderNat (n : Nat) (h : n < 10 ^ 24) : valBE (renderNat n) = n := by
  by_cases hn : n = 0
  · subst hn; rfl
  · simp only [renderNat, if_neg hn]
    exact valBE_renderAux 24 n h

theorem renderNat_all_digits (n : Nat) : (renderNat n).all isDigitChar = true := by
  by_cases hn : n = 0
  · subst hn; rfl
  · simp only [renderNat, if_neg hn]
    exact renderAux_all_digits 24 n

theorem renderNat_length_le (n k : Nat) (h : n < 10 ^ k) (hk : 1 ≤ k) :
    (renderNat n).length ≤ k := by
  by_cases hn : n = 0
  · subst hn; simpa [renderNat] using hk
  · simp only [renderNat, if_neg hn]
    exact renderAux_length_le 24 n k h

theorem padZeros_length (w : Nat) (l : List Char) (h : l.length ≤ w) :
    (padZeros w l).length = w := by
  simp [padZeros]; omega

theorem padZeros_all_digits (w : Nat) (l : List Char) (h : l.all isDigitChar = true) :
    (padZeros w l).all isDigitChar = true := by
  have hrep : ∀ x ∈ List.replicate (w - l.length) '0', isDigitChar x = true := by
    intro x hx
    rw [List.eq_of_mem_replicate hx]; rfl
  simp [padZeros, List.all_append, h, List.all_eq_true.mpr hrep]

theorem head?_append_left {α : Type} {l₁ l₂ : List α} (h : l₁ ≠ []) :
    (l₁ ++ l₂).head? = l₁.head? := by
  cases l₁ with
  | nil => exact absurd rfl h
  | cons a t => rfl

theorem parseDigits?_digits (l : List Char) (hne : l ≠ []) (hd : l.all isDigitChar = true) :
    parseDigits? l = some (valBE l) := by
  have hempty : l.isEmpty = false := by
    cases l with
    | nil => exact absurd rfl hne
    | cons c t => rfl
  simp [parseDigits?, hempty, hd]

theorem parseI64?_digits (l : List Char) (hne : l ≠ []) (hd : l.all isDigitChar = true)
    (hlt : valBE l < 2 ^ 63) : parseI64? l = some ((valBE l : Int)) := by
  cases l with
  | nil => exact absurd rfl hne
  | cons c rest =>
    have hcall := hd
    simp only [List.all_cons, Bool.and_eq_true] at hd
    have hminus : c ≠ '-' := by
      intro h; rw [h] at hd
      exact absurd hd.1 (by decide)
    have hplus : c ≠ '+' := by
      intro h; rw [h] at hd
      exact absurd hd.1 (by decide)
    simp only [parseI64?, if_neg hminus, if_neg hplus]
    rw [parseDigits?_digits _ hne hcall]
    simp only [Option.some_bind]
    rw [if_pos hlt]

theorem renderAux_valBE (l : List Char) : ∀ fuel, l.all isDigitChar = true → l ≠ [] →
    l.head? ≠ some '0' → l.length ≤ fuel → renderAux fuel (valBE l) = l := by
  induction l using List.reverseRecOn with
  | nil => intro fuel _ hne _ _; exact absurd rfl hne
  | append_singleton l' c ih =>
    intro fuel hd hne h0 hlen
    simp only [List.all_append, List.all_cons, List.all_nil, Bool.and_eq_true,
      Bool.and_true] at hd
    have hc : isDigitChar c = true := hd.2
    have hc9 := charVal_le_nine hc
    rw [valBE_append]
    have hval1 : valBE l' * 10 ^ ([c] : List Char).length + valBE [c]
        = valBE l' * 10 + charVal c := by
      simp [valBE]
    rw [hval1]
    cases l' with
    | nil =>
      have hc0 : c ≠ '0' := by simpa using h0
      have hpos := charVal_pos hc hc0
      cases fuel with
      | zero => simp at hlen
      | succ f =>
        have hne0 : valBE [] * 10 + charVal c ≠ 0 := by simp [valBE]; omega
        simp only [renderAux, if_neg hne0]
        have hv : valBE [] * 10 + charVal c = charVal c := by simp [valBE]
        rw [hv]
        have hdiv : charVal c / 10 = 0 := by omega
        have hmod : charVal c % 10 = charVal c := by omega
        rw [hdiv, hmod, renderAux_zero, digitChar_charVal hc]
    | cons c₀ t₀ =>
      have hne' : (c₀ :: t₀ : List Char) ≠ [] := by simp
      have h0' : (c₀ :: t₀ : List Char).head? ≠ some '0' := by
        rw [head?_append_left hne'] at h0; exact h0
      have hc₀0 : c₀ ≠ '0' := by simpa using h0'
      have hd₀ : isDigitChar c₀ = true := by
        have := hd.1; simp only [List.all_cons, Bool.and_eq_true] at this; exact this.1
      have hpos : 1 ≤ valBE (c₀ :: t₀) := valBE_pos c₀ t₀ hd₀ hc₀0
      cases fuel with
      | zero =>
        simp only [List.length_append, List.length_cons, List.length_nil] at hlen
        omega
      | succ f =>
        have hne0 : valBE (c₀ :: t₀) * 10 + charVal c ≠ 0 := by omega
        simp only [renderAux, if_neg hne0]
        have hdiv : (valBE (c₀ :: t₀) * 10 + charVal c) / 10 = valBE (c₀ :: t₀) := by omega
        have hmod : (valBE (c₀ :: t₀) * 10 + charVal c) % 10 = charVal c := by omega
        rw [hdiv, hmod, digitChar_charVal hc]
        have hlen' : (c₀ :: t₀ : List Char).length ≤ f := by
          simp only [List.length_append, List.length_cons, List.length_nil] at hlen ⊢
          omega
        rw [ih f hd.1 hne' h0' hlen']

theorem padZeros_renderNat_valBE : ∀ l : List Char, l.all isDigitChar = true → l ≠ [] →
    l.length ≤ 24 → padZeros l.length (renderNat (valBE l)) = l := by
  intro l
  induction l with
  | nil => intro _ hne _; exact absurd rfl hne
  | cons c t ih =>
    intro hd hne hlen
    have hdc := hd
    simp only [List.all_cons, Bool.and_eq_true] at hdc
    by_cases hc : c = '0'
    · subst hc
      have hval : valBE ('0' :: t) = valBE t := by
        rw [valBE_cons]
        have h0 : charVal '0' = 0 := rfl
        simp [h0]
      rw [hval]
      cases t with
      | nil => rfl
      | cons c' t' =>
        have hne' : (c' :: t' : List Char) ≠ [] := by simp
        have hlen' : (c' :: t' : List Char).length ≤ 24 := by
          simp only [List.length_cons] at hlen ⊢; omega
        have iht := ih hdc.2 hne' hlen'
        have hx : (renderNat (valBE (c' :: t'))).length ≤ (c' :: t' : List Char).length :=
          renderNat_length_le _ _ (valBE_lt _ hdc.2) (by simp)
        simp only [padZeros, List.length_cons] at iht ⊢
        have hsub : t'.length + 1 + 1 - (renderNat (valBE (c' :: t'))).length
            = (t'.length + 1 - (renderNat (valBE (c' :: t'))).length) + 1 := by
          simp only [List.length_cons] at hx
          omega
        rw [hsub, List.replicate_succ, List.cons_append, iht]
    · have hpos := valBE_pos c t hdc.1 hc
      have hne0 : valBE (c :: t) ≠ 0 := by omega
      rw [renderNat, if_neg hne0]
      rw [renderAux_valBE (c :: t) 24 hd hne (by simpa using hc) hlen]
      simp [padZeros]

theorem encode_append {s f : List Char} (hs10 : s.length = 10) (hf6 : f.length = 6)
    (hsd : s.all isDigitChar = true) (hfd : f.all isDigitChar = true) :
    slack_ts_to_unix_micros (s ++ '.' :: f)
      = some ((valBE s : Int) * 1000000 + (valBE f : Int)) := by
  have hlen : (s ++ '.' :: f).length = 17 := by simp [hs10, hf6]
  have htake : (s ++ '.' :: f).take 10 = s := by
    rw [← hs10]; exact List.take_left s _
  have hdrop : (s ++ '.' :: f).drop 10 = '.' :: f := by
    rw [← hs10]; exact List.drop_left s _
  have hsne : s ≠ [] := by intro h; rw [h] at hs10; simp at hs10
  have hfne : f ≠ [] := by intro h; rw [h] at hf6; simp at hf6
  have hsval : valBE s < 2 ^ 63 := by
    have h1 := valBE_lt s hsd
    rw [hs10] at h1
    calc valBE s < 10 ^ 10 := h1
      _ < 2 ^ 63 := by norm_num
  have hfval : valBE f < 2 ^ 63 := by
    have h1 := valBE_lt f hfd
    rw [hf6] at h1
    calc valBE f < 10 ^ 6 := h1
      _ < 2 ^ 63 := by norm_num
  simp only [slack_ts_to_unix_micros, hlen, htake, hdrop]
  rw [if_neg (by norm_num)]
  simp only [List.length_cons, hf6, List.drop_succ_cons, List.drop_zero]
  rw [if_neg (by norm_num)]
  rw [parseI64?_digits s hsne hsd hsval, parseI64?_digits f hfne hfd hfval]

theorem tdiv_million (a : Nat) : ((a : Int)).tdiv 1000000 = ((a / 1000000 : Nat) : Int) := rfl

theorem tmod_million (a : Nat) : ((a : Int)).tmod 1000000 = ((a % 1000000 : Nat) : Int) := rfl

theorem natAbs_cast (a : Nat) : ((a : Int)).natAbs = a := rfl

theorem decode_val {s f : List Char} (hs10 : s.length = 10) (hf6 : f.length = 6)
    (hsd : s.all isDigitChar = true) (hfd : f.all isDigitChar = true) :
    unix_micros_to_slack_ts ((valBE s : Int) * 1000000 + (valBE f : Int)) = s ++ '.' :: f := by
  have hfv : valBE f < 10 ^ 6 := by
    have h1 := valBE_lt f hfd; rwa [hf6] at h1
  have hm : (valBE s : Int) * 1000000 + (valBE f : Int)
      = ((valBE s * 1000000 + valBE f : Nat) : Int) := by
    push_cast; ring
  rw [hm]
  have hdivN : (valBE s * 1000000 + valBE f) / 1000000 = valBE s := by omega
  have hmodN : (valBE s * 1000000 + valBE f) % 1000000 = valBE f := by omega
  simp only [unix_micros_to_slack_ts, tdiv_million, tmod_million, hdivN, hmodN, fmtPad]
  rw [if_neg (by omega : ¬ ((valBE s : Int) < 0)),
    if_neg (by omega : ¬ ((valBE f : Int) < 0)), natAbs_cast, natAbs_cast]
  have hs' : padZeros 10 (renderNat (valBE s)) = s := by
    have := padZeros_renderNat_valBE s hsd (by intro h; rw [h] at hs10; simp at hs10)
      (by omega)
    rwa [hs10] at this
  have hf' : padZeros 6 (renderNat (valBE f)) = f := by
    have := padZeros_renderNat_valBE f hfd (by intro h; rw [h] at hf6; simp at hf6)
      (by omega)
    rwa [hf6] at this
  rw [hs', hf']

theorem decode_encode_small (m : Int) (h0 : 0 ≤ m) (hlt : m < 10 ^ 16) :
    slack_ts_to_unix_micros (unix_micros_to_slack_ts m) = some m := by
  obtain ⟨mn, rfl⟩ : ∃ n : Nat, m = (n : Int) := ⟨m.toNat, (Int.toNat_of_nonneg h0).symm⟩
  have hmn : mn < 10 ^ 16 := by exact_mod_cast hlt
  have hsv : mn / 1000000 < 10 ^ 10 := by omega
  have hfv : mn % 1000000 < 10 ^ 6 := by omega
  have hdec : unix_micros_to_slack_ts ((mn : Int))
      = padZeros 10 (renderNat (mn / 1000000)) ++ '.' :: padZeros 6 (renderNat (mn % 1000000)) := by
    simp only [unix_micros_to_slack_ts, tdiv_million, tmod_million, fmtPad]
    rw [if_neg (by omega : ¬ (((mn / 1000000 : Nat) : Int) < 0)),
      if_neg (by omega : ¬ (((mn % 1000000 : Nat) : Int) < 0)), natAbs_cast, natAbs_cast]
  rw [hdec]
  have hs_len : (padZeros 10 (renderNat (mn / 1000000))).length = 10 :=
    padZeros_length _ _ (renderNat_length_le _ _ hsv (by norm_num))
  have hf_len : (padZeros 6 (renderNat (mn % 1000000))).length = 6 :=
    padZeros_length _ _ (renderNat_length_le _ _ hfv (by norm_num))
  rw [encode_append hs_len hf_len
    (padZeros_all_digits _ _ (renderNat_all_digits _))
    (padZeros_all_digits _ _ (renderNat_all_digits _))]
  rw [valBE_padZeros, valBE_padZeros,
    valBE_renderNat _ (by omega), valBE_renderNat _ (by omega)]
  have hsum : (↑(mn / 1000000) : Int) * 1000000 + ↑(mn % 1000000) = ↑mn := by
    push_cast; omega
  rw [hsum]

theorem persistMessage_nonstandard {db : List Row} {cid : String} {m : SlackMessage}
    (h : isStandard m = false) : persistMessage db cid m = .ok (db, none) := by
  cases m <;> first | rfl | simp [isStandard] at h

theorem persistMessage_write_ts {db : List Row} {cid : String} {m : SlackMessage}
    {db' : List Row} {row : Row} (h : persistMessage db cid m = .ok (db', some row)) :
    message_ts m = some (some row.ts) := by
  cases m
  case Standard ts user text =>
    cases ts with
    | none => simp [persistMessage] at h
    | some s =>
      cases hdec : slack_ts_to_unix_micros s with
      | none => simp [persistMessage, hdec] at h
      | some v =>
        cases user with
        | none => simp [persistMessage, hdec, upsert] at h
        | some u =>
          simp only [persistMessage, hdec, upsert, Except.ok.injEq, Prod.mk.injEq,
            Option.some.injEq] at h
          obtain ⟨hdb, hrow⟩ := h
          subst hrow
          simp [message_ts, tsField, hdec]
  all_goals simp [persistMessage] at h

theorem persistBatch_writes_ts_mem (cid : String) :
    ∀ (msgs : List SlackMessage) (db : List Row) (r : Row),
      r ∈ (persistBatch db cid msgs).writes →
      ∃ m ∈ msgs, message_ts m = some (some r.ts) := by
  intro msgs
  induction msgs with
  | nil => intro db r hr; simp [persistBatch] at hr
  | cons m rest ih =>
    intro db r hr
    simp only [persistBatch] at hr
    cases hpm : persistMessage db cid m with
    | error e => rw [hpm] at hr; simp at hr
    | ok p =>
      obtain ⟨db', w⟩ := p
      rw [hpm] at hr
      simp only [List.mem_append] at hr
      rcases hr with hw | hrest
      · cases w with
        | none => simp at hw
        | some row =>
          simp only [Option.toList_some, List.mem_singleton] at hw
          subst hw
          exact ⟨m, List.mem_cons_self m rest, persistMessage_write_ts hpm⟩
      · obtain ⟨m', hm', hts⟩ := ih db' r hrest
        exact ⟨m', List.mem_cons_of_mem _ hm', hts⟩

theorem persistBatch_writes_pairwise (cid : String) :
    ∀ (msgs : List SlackMessage) (tss : List Int) (db : List Row),
      msgs.map message_ts = tss.map (fun t => some (some t)) →
      tss.Pairwise (· < ·) →
      ((persistBatch db cid msgs).writes).Pairwise (fun r₁ r₂ => r₁.ts < r₂.ts) := by
  intro msgs
  induction msgs with
  | nil => intro tss db _ _; simp [persistBatch]
  | cons m rest ih =>
    intro tss db hmap hpw
    cases tss with
    | nil => simp at hmap
    | cons t ts' =>
      simp only [List.map_cons, List.cons.injEq] at hmap
      obtain ⟨hm, hrest⟩ := hmap
      rw [List.pairwise_cons] at hpw
      obtain ⟨hlt, hpw'⟩ := hpw
      simp only [persistBatch]
      cases hpm : persistMessage db cid m with
      | error e => simp
      | ok p =>
        obtain ⟨db', w⟩ := p
        simp only []
        rw [List.pairwise_append]
        refine ⟨?_, ih ts' db' hrest hpw', ?_⟩
        · cases w with
          | none => simp
          | some row => simp
        · intro a ha b hb
          obtain ⟨m', hm'mem, hm'ts⟩ := persistBatch_writes_ts_mem cid rest db' b hb
          have hmem : message_ts m' ∈ ts'.map (fun t => some (some t)) := by
            rw [← hrest]; exact List.mem_map_of_mem _ hm'mem
          rw [hm'ts] at hmem
          obtain ⟨tb, htb_mem, htb_eq⟩ := List.mem_map.mp hmem
          have htb : tb = b.ts := by simpa using htb_eq
          subst htb
          cases w with
          | none => simp at ha
          | some row =>
            simp only [Option.toList_some, List.mem_singleton] at ha
            rw [ha]
            have hrow := persistMessage_write_ts hpm
            rw [hm] at hrow
            have hteq : t = row.ts := by simpa using hrow
            rw [← hteq]
            exact hlt _ htb_mem

theorem persistBatch_filter_standard (cid : String) :
    ∀ (msgs : List SlackMessage) (db : List Row),
      persistBatch db cid msgs = persistBatch db cid (msgs.filter isStandard) := by
  intro msgs
  induction msgs with
  | nil => intro db; rfl
  | cons m rest ih =>
    intro db
    by_cases hs : isStandard m = true
    · rw [List.filter_cons_of_pos hs]
      simp only [persistBatch]
      cases hpm : persistMessage db cid m with
      | error e => rfl
      | ok p =>
        obtain ⟨db', w⟩ := p
        dsimp only
        rw [ih db']
    · have hs' : isStandard m = false := by simpa using hs
      rw [List.filter_cons_of_neg (by simp [hs'])]
      have hpm : persistMessage db cid m = .ok (db, none) := persistMessage_nonstandard hs'
      simp only [persistBatch, hpm]
      rw [← ih db]
      simp only [Option.toList_none, List.nil_append]

/-- C1: persistence is idempotent with last-write-wins semantics.  For every
table state and every `(channel_id, timestamp)` key, a first upsert and then a
second upsert with the same key both succeed (the second never fails because
the key already exists), the resulting table holds exactly one record for the
key, that record carries the second write's author and body, and records under
every other key are exactly those of the original table. -/
theorem upsert_idempotent_last_write_wins (db : List Row) (cid : String) (ts : Int)
    (u1 u2 : String) (t1 t2 : Option String) :
    ∃ db1 db2,
      upsert db cid ts (some u1) t1 = some db1 ∧
      upsert db1 cid ts (some u2) t2 = some db2 ∧
      db2.filter (fun r => rowKey r cid ts) = [⟨cid, ts, u2, t2⟩] ∧
      db2.filter (fun r => !rowKey r cid ts) = db.filter (fun r => !rowKey r cid ts) := by
  refine ⟨_, _, rfl, rfl, ?_, ?_⟩
  · have hk2 : rowKey ⟨cid, ts, u2, t2⟩ cid ts = true := by simp [rowKey]
    simp [List.filter_append, List.filter_filter, hk2, rowKey]
  · simp [List.filter_append, List.filter_filter, rowKey]

/-- C2 (counterexample): the claim's second round-trip direction fails for the
non-negative integer `10 ^ 16`: its decoded string has an eleven-digit seconds
part, so re-encoding splits it at the wrong place and panics (`none`) instead
of returning `some (10 ^ 16)`. -/
theorem codec_roundtrip_counterexample :
    0 ≤ (10 ^ 16 : Int) ∧
    slack_ts_to_unix_micros (unix_micros_to_slack_ts (10 ^ 16)) = none :=
  ⟨by norm_num, by decide⟩

/-- C2 (amended): the timestamp codec functions are exact inverses on the
wire format and on the integers the wire format can express.  For every
string in the wire format `<10-digit-seconds>.<6-digit-fraction>`, decoding
the encoding gives back the string; and for every non-negative integer
`m < 10 ^ 16` (ten-digit seconds), encoding the decoding gives back `m`. -/
theorem codec_roundtrip_amended :
    (∀ l : List Char, IsWireTs l →
      ∃ m : Int, slack_ts_to_unix_micros l = some m ∧ 0 ≤ m ∧
        unix_micros_to_slack_ts m = l) ∧
    (∀ m : Int, 0 ≤ m → m < 10 ^ 16 →
      slack_ts_to_unix_micros (unix_micros_to_slack_ts m) = some m) := by
  constructor
  · rintro l ⟨s, f, rfl, hs10, hf6, hsd, hfd⟩
    exact ⟨(valBE s : Int) * 1000000 + (valBE f : Int),
      encode_append hs10 hf6 hsd hfd, by positivity, decode_val hs10 hf6 hsd hfd⟩
  · exact decode_encode_small

/-- C2 (witness): the amended round-trip theorem applied to the concrete
wire timestamp `1234567890.123456` and the concrete integer `42`. -/
theorem codec_roundtrip_amended_witness :
    (∃ m : Int, slack_ts_to_unix_micros ("1234567890.123456".toList) = some m ∧ 0 ≤ m ∧
      unix_micros_to_slack_ts m = "1234567890.123456".toList) ∧
    slack_ts_to_unix_micros (unix_micros_to_slack_ts 42) = some 42 :=
  ⟨codec_roundtrip_amended.1 _
      ⟨"1234567890".toList, "123456".toList, by decide, by decide, by decide, by decide,
        by decide⟩,
   codec_roundtrip_amended.2 42 (by norm_num) (by norm_num)⟩

/-- C3 (counterexample): on a first run (no prior timestamp) the start cursor
is the literal `1`, not the earliest representable moment `0` (the encoding of
the minimal wire timestamp `0000000000.000000`). -/
theorem computeStart_counterexample : computeStart none ≠ earliestRepresentableMicros := by
  decide

/-- C3 (amended): when the cursor store returns no prior timestamp the start
timestamp is the fixed value 1 (one microsecond after the epoch, one tick
above the earliest representable moment, effectively the beginning of time);
when it returns `last`, the start timestamp is `last` minus the 60-minute edit
window expressed in microseconds, 3,600,000,000. -/
theorem computeStart_amended :
    computeStart none = 1 ∧ ∀ last : Int, computeStart (some last) = last - 3600000000 := by
  refine ⟨rfl, fun last => ?_⟩
  simp [computeStart, EDIT_WINDOW_MINUTES]

/-- C3 (grounding): `earliestRepresentableMicros` is indeed the value the
codec assigns to the minimal wire timestamp. -/
theorem earliestRepresentable_is_min_wire :
    slack_ts_to_unix_micros ("0000000000.000000".toList) = some earliestRepresentableMicros := by
  decide

/-- C4: ordering preservation.  For a fetched page whose messages carry
timestamps in strictly descending order, the rows persisted from that page
(the `INSERT OR REPLACE` statements issued while iterating over the reversed
batch) are written in strictly ascending timestamp order. -/
theorem page_persisted_strictly_ascending (db : List Row) (cid : String)
    (msgs : List SlackMessage) (tss : List Int)
    (hmap : msgs.map message_ts = tss.map (fun t => some (some t)))
    (hdesc : tss.Pairwise (· > ·)) :
    ((persistBatch db cid msgs.reverse).writes).Pairwise (fun r₁ r₂ => r₁.ts < r₂.ts) := by
  apply persistBatch_writes_pairwise cid msgs.reverse tss.reverse db
  · rw [List.map_reverse, List.map_reverse, hmap]
  · rw [List.pairwise_reverse]
    exact hdesc

/-- C4 (witness): the ordering theorem applied to a concrete two-message page
in descending order. -/
theorem page_persisted_strictly_ascending_witness :
    ((persistBatch [] "general"
      ([SlackMessage.Standard (some ("0000000002.000000".toList)) (some "alice") (some "two"),
        SlackMessage.Standard (some ("0000000001.000000".toList)) (some "bob")
          (some "one")]).reverse).writes).Pairwise
      (fun r₁ r₂ => r₁.ts < r₂.ts) :=
  page_persisted_strictly_ascending [] "general" _ [2000000, 1000000] (by decide) (by decide)

/-- C5: only standard messages are persisted — persisting a batch equals
persisting just its standard messages, and a non-standard message leaves the
table untouched and writes nothing — yet when the newest element of a page
(index 0) is a non-standard variant carrying a timestamp, that timestamp
becomes the lower bound carried into the next fetch call. -/
theorem nonstandard_skipped_but_cursor_advances (db : List Row) (cid : String)
    (oldest t : Int) (m0 : SlackMessage)
    (hns : isStandard m0 = false) (ht : message_ts m0 = some (some t)) :
    (∀ msgs : List SlackMessage,
       persistBatch db cid msgs = persistBatch db cid (msgs.filter isStandard)) ∧
    persistMessage db cid m0 = .ok (db, none) ∧
    (∀ (ms : List SlackMessage) (db' : List Row) (w : List Row),
       persistBatch db cid ((m0 :: ms).reverse) = ⟨db', w, none⟩ →
       archiveStep cid db oldest (some ⟨some (m0 :: ms), some true⟩) = .next db' t) := by
  refine ⟨fun msgs => persistBatch_filter_standard cid msgs db,
    persistMessage_nonstandard hns, ?_⟩
  intro ms db' w hpb
  simp only [List.reverse_cons] at hpb
  simp [archiveStep, cursorUpdate, ht, hpb]

/-- C5 (witness): the theorem applied to a page whose single (hence newest)
message is a channel-join event: nothing is persisted, and its timestamp
becomes the next lower bound. -/
theorem nonstandard_skipped_but_cursor_advances_witness :
    persistMessage [] "c" (SlackMessage.ChannelJoin (some ("0000000005.000000".toList)))
      = .ok ([], none) ∧
    archiveStep "c" [] 1
        (some ⟨some [SlackMessage.ChannelJoin (some ("0000000005.000000".toList))], some true⟩)
      = .next [] 5000000 := by
  have h := nonstandard_skipped_but_cursor_advances [] "c" 1 5000000
    (SlackMessage.ChannelJoin (some ("0000000005.000000".toList))) (by decide) (by decide)
  exact ⟨h.2.1, h.2.2 [] [] [] (by decide)⟩

/-- C6: a fetch returning an empty message batch makes the sync loop break
immediately with the store unchanged (whatever `has_more` says and whatever
later fetches would return), and an absent `has_more` flag is treated exactly
like `false` — never as an error. -/
theorem empty_page_done_and_absent_has_more_false
    (fetch : Int → Option FetchResponse) (cid : String) (db : List Row)
    (oldest : Int) (fuel : Nat) (hm : Option Bool)
    (hf : fetch oldest = some ⟨some [], hm⟩) :
    run fetch cid (fuel + 1) db oldest = .done db ∧
    (∀ (db₀ : List Row) (oldest₀ : Int) (msgs : Option (List SlackMessage)),
      archiveStep cid db₀ oldest₀ (some ⟨msgs, none⟩)
        = archiveStep cid db₀ oldest₀ (some ⟨msgs, some false⟩)) := by
  constructor
  · simp [run, hf, archiveStep]
  · intro db₀ oldest₀ msgs
    cases msgs with
    | none => rfl
    | some l =>
      cases l with
      | nil => rfl
      | cons m0 ms => rfl

/-- C6 (witness): the theorem applied to a concrete run whose first fetch
returns an empty batch with `has_more` absent. -/
theorem empty_page_done_and_absent_has_more_false_witness :
    run (fun _ => some ⟨some [], none⟩) "c" 1 [] 1 = .done [] :=
  (empty_page_done_and_absent_has_more_false (fun _ => some ⟨some [], none⟩) "c" [] 1 0 none
    rfl).1

/-- C7 (counterexample): an input without any decimal point is not rejected:
the sixteen-digit string `1234567890123456` is split at byte 10 and encodes
successfully to `1234567890023456` micros, contradicting the claim that such
inputs fail with a `MalformedTimestamp` error. -/
theorem encode_no_dot_counterexample :
    slack_ts_to_unix_micros ("1234567890123456".toList) = some 1234567890023456 := by
  decide

/-- C7 (amended): the encode function performs no decimal-point validation
and returns no error value: it panics (modelled as `none`) exactly when the
input is shorter than 11 characters or when its first ten characters or the
characters from index 11 on fail to parse as a signed 64-bit integer. -/
theorem encode_failure_characterization (ts : List Char) :
    slack_ts_to_unix_micros ts = none ↔
      ts.length < 11 ∨ parseI64? (ts.take 10) = none ∨ parseI64? (ts.drop 11) = none := by
  by_cases h10 : ts.length < 10
  · have h11 : ts.length < 11 := by omega
    simp [slack_ts_to_unix_micros, h10, h11]
  · simp only [slack_ts_to_unix_micros, if_neg h10]
    by_cases h0 : (ts.drop 10).length = 0
    · simp only [if_pos h0]
      have hlen : ts.length = 10 := by simp [List.length_drop] at h0; omega
      simp [hlen]
    · have h11 : ¬ ts.length < 11 := by simp [List.length_drop] at h0; omega
      simp only [if_neg h0]
      have hdd : (ts.drop 10).drop 1 = ts.drop 11 := by
        simp [List.drop_drop]
      rw [hdd]
      cases hs : parseI64? (ts.take 10) with
      | none => simp [h11]
      | some s =>
        cases hf : parseI64? (ts.drop 11) with
        | none => simp [h11]
        | some f => simp [h11]

/-- C8 (counterexample): a standard-variant message with an absent timestamp
is not silently dropped — `msg.ts.unwrap()` panics and the batch aborts; and
a standard message lacking a text body is not dropped either — it is
persisted with an absent (`NULL`) body. -/
theorem missing_ts_aborts_counterexample :
    persistBatch [] "c" [SlackMessage.Standard none (some "u") (some "hello")]
      = ⟨[], [], some .panic⟩ ∧
    persistBatch [] "c" [SlackMessage.Standard (some ("0000000003.000000".toList)) (some "u") none]
      = ⟨[⟨"c", 3000000, "u", none⟩], [⟨"c", 3000000, "u", none⟩], none⟩ :=
  ⟨by decide, by decide⟩

/-- C8 (amended): a standard-variant message with an absent timestamp aborts
the batch with a panic; a message lacking a timestamp is only tolerated on
the cursor path (where the newest message's absent timestamp leaves the bound
unchanged); and a standard message lacking a text body is persisted with an
absent body rather than dropped. -/
theorem missing_field_handling :
    (∀ (db : List Row) (cid : String) (u t : Option String),
      persistMessage db cid (.Standard none u t) = .error .panic) ∧
    (∀ (oldest : Int) (m : SlackMessage), tsField m = none →
      cursorUpdate oldest m = .ok oldest) ∧
    (∀ (db : List Row) (cid : String) (s : List Char) (v : Int) (u : String),
      slack_ts_to_unix_micros s = some v →
      persistMessage db cid (.Standard (some s) (some u) none)
        = .ok (db.filter (fun r => !rowKey r cid v) ++ [⟨cid, v, u, none⟩],
               some ⟨cid, v, u, none⟩)) := by
  refine ⟨fun db cid u t => rfl, ?_, ?_⟩
  · intro oldest m hts
    simp [cursorUpdate, message_ts, hts]
  · intro db cid s v u hdec
    simp [persistMessage, hdec, upsert]

/-- C8 (witness): the amended theorem applied to a concrete join event with
no timestamp (cursor kept) and a concrete standard message with no body
(persisted with a `NULL` body). -/
theorem missing_field_handling_witness :
    cursorUpdate 9 (SlackMessage.ChannelJoin none) = .ok 9 ∧
    persistMessage [] "c" (SlackMessage.Standard (some ("0000000003.000000".toList)) (some "u") none)
      = .ok ([⟨"c", 3000000, "u", none⟩], some ⟨"c", 3000000, "u", none⟩) := by
  refine ⟨missing_field_handling.2.1 9 _ rfl, ?_⟩
  have h := missing_field_handling.2.2 [] "c" ("0000000003.000000".toList) 3000000 "u" (by decide)
  simpa using h

/-- C9: a failed fetch aborts the channel run immediately (the rest of the
fetch schedule is never consulted) with the store exactly as already written,
and a persistence failure inside a page aborts the run carrying the table
produced by the statements that succeeded before it — no retry, no rollback. -/
theorem errors_abort_without_rollback (fetch : Int → Option FetchResponse)
    (cid : String) (fuel : Nat) (db : List Row) (oldest : Int) :
    (fetch oldest = none → run fetch cid (fuel + 1) db oldest = .aborted db .fetchError) ∧
    (∀ (m0 : SlackMessage) (ms : List SlackMessage) (hm : Option Bool) (t : Int)
       (db' w : List Row) (e : Abort),
      fetch oldest = some ⟨some (m0 :: ms), hm⟩ →
      cursorUpdate oldest m0 = .ok t →
      persistBatch db cid ((m0 :: ms).reverse) = ⟨db', w, some e⟩ →
      run fetch cid (fuel + 1) db oldest = .aborted db' e) := by
  constructor
  · intro hf; simp [run, hf, archiveStep]
  · intro m0 ms hm t db' w e hf hcu hpb
    simp only [List.reverse_cons] at hpb
    simp [run, hf, archiveStep, hcu, hpb]

/-- C9 (witness): the theorem applied to a concrete failing fetch and to a
concrete page whose only message violates the `NOT NULL` author column. -/
theorem errors_abort_without_rollback_witness :
    run (fun _ => none) "c" 1 [] 1 = .aborted [] .fetchError ∧
    run (fun _ => some ⟨some [SlackMessage.Standard (some ("0000000003.000000".toList)) none none],
          some true⟩)
        "c" 1 [] 1 = .aborted [] .persistError := by
  refine ⟨(errors_abort_without_rollback (fun _ => none) "c" 0 [] 1).1 rfl, ?_⟩
  exact (errors_abort_without_rollback _ "c" 0 [] 1).2
    (SlackMessage.Standard (some ("0000000003.000000".toList)) none none) [] (some true)
    3000000 [] [] .persistError rfl (by decide) (by decide)

/-- C10: `archive_all` invokes the per-channel sync only for listed channels
whose name is exactly `general` and whose id and name are both present —
every id it acts on comes from such a channel, and when no invocation fails
the acted-on ids are exactly those of the listed channels named `general`. -/
theorem archive_all_only_general (act : String → Except Abort Unit) (channels : List Channel) :
    (∀ i ∈ (archive_all act channels).1,
        ∃ c ∈ channels, c.id = some i ∧ c.name = some "general") ∧
    ((∀ j, act j = .ok ()) →
      (archive_all act channels).1 = channels.filterMap fun c =>
        match c.id, c.name with
        | some i, some n => if n = "general" then some i else none
        | _, _ => none) := by
  induction channels with
  | nil => exact ⟨by simp [archive_all], by simp [archive_all]⟩
  | cons c rest ih =>
    obtain ⟨ih1, ih2⟩ := ih
    constructor
    · intro i hi
      cases hcid : c.id with
      | none =>
        simp only [archive_all, hcid] at hi
        obtain ⟨c', hc', hp⟩ := ih1 i hi
        exact ⟨c', List.mem_cons_of_mem _ hc', hp⟩
      | some i' =>
        cases hname : c.name with
        | none =>
          simp only [archive_all, hcid, hname] at hi
          obtain ⟨c', hc', hp⟩ := ih1 i hi
          exact ⟨c', List.mem_cons_of_mem _ hc', hp⟩
        | some n =>
          by_cases hgen : n = "general"
          · subst hgen
            cases hact : act i' with
            | error e =>
              simp only [archive_all, hcid, hname, if_pos rfl, hact] at hi
              have hii : i = i' := by simpa using hi
              subst hii
              exact ⟨c, List.mem_cons_self c rest, hcid, hname⟩
            | ok u =>
              simp only [archive_all, hcid, hname, if_pos rfl, hact] at hi
              rcases List.mem_cons.mp hi with hieq | hirest
              · subst hieq
                exact ⟨c, List.mem_cons_self c rest, hcid, hname⟩
              · obtain ⟨c', hc', hp⟩ := ih1 i hirest
                exact ⟨c', List.mem_cons_of_mem _ hc', hp⟩
          · simp only [archive_all, hcid, hname, if_neg hgen] at hi
            obtain ⟨c', hc', hp⟩ := ih1 i hi
            exact ⟨c', List.mem_cons_of_mem _ hc', hp⟩
    · intro hok
      cases hcid : c.id with
      | none =>
        have he : archive_all act (c :: rest) = archive_all act rest := by
          simp [archive_all, hcid]
        rw [he, List.filterMap_cons]
        simp only [hcid]
        rw [ih2 hok]
      | some i' =>
        cases hname : c.name with
        | none =>
          have he : archive_all act (c :: rest) = archive_all act rest := by
            simp [archive_all, hcid, hname]
          rw [he, List.filterMap_cons]
          simp only [hcid, hname]
          rw [ih2 hok]
        | some n =>
          by_cases hgen : n = "general"
          · subst hgen
            have he : archive_all act (c :: rest)
                = (i' :: (archive_all act rest).1, (archive_all act rest).2) := by
              simp [archive_all, hcid, hname, hok i']
            rw [he, List.filterMap_cons]
            simp only [hcid, hname, if_pos rfl]
            rw [ih2 hok]
            simp
          · have he : archive_all act (c :: rest) = archive_all act rest := by
              simp [archive_all, hcid, hname, hgen]
            rw [he, List.filterMap_cons]
            simp only [hcid, hname, if_neg hgen]
            rw [ih2 hok]

/-- C10 (witness): the theorem applied to a concrete channel list containing
a `general` channel, a differently named channel, and channels with a missing
id or name: only the `general` channel's id is acted on. -/
theorem archive_all_only_general_witness :
    (∃ c ∈ [(⟨some "C1", some "general"⟩ : Channel), ⟨some "C2", some "random"⟩,
        ⟨none, some "general"⟩, ⟨some "C3", none⟩],
      c.id = some "C1" ∧ c.name = some "general") ∧
    (archive_all (fun _ => .ok ())
      [(⟨some "C1", some "general"⟩ : Channel), ⟨some "C2", some "random"⟩,
        ⟨none, some "general"⟩, ⟨some "C3", none⟩]).1 = ["C1"] := by
  constructor
  · exact (archive_all_only_general (fun _ => .ok ()) _).1 "C1" (by decide)
  · have h := (archive_all_only_general (fun _ => .ok ())
      [(⟨some "C1", some "general"⟩ : Channel), ⟨some "C2", some "random"⟩,
        ⟨none, some "general"⟩, ⟨some "C3", none⟩]).2 (fun j => rfl)
    rw [h]
    decide

end SlackArchive
